import Mathlib

/-!
Shallow embedding of the devstral-proxy message pipeline
(`src/devstral_proxy/utils.py`): the content normalizer
(`normalize_content`), per-message transcoder
(`convert_openai_to_mistral_message`), whole-sequence repairer and
envelope sanitizer (`sanitize_request_body`) and the response adapter
(`sanitize_response_body`), together with proofs settling the claims
about them.  Logging calls in the source are observationally silent and
are not modelled.
-/

namespace DevstralProxy

/-- JSON-like values: the dynamic parts of the request and response
envelopes (unknown keys on messages, the tools catalog, response
bodies).  Numbers are modelled as integers; no claim depends on float
arithmetic. -/
inductive J where
  | null
  | jb (b : Bool)
  | jn (n : Int)
  | js (s : String)
  | jarr (elems : List J)
  | jobj (fields : List (String × J))

/-- Python truthiness (`if value:`) for the modelled JSON values. -/
def pyTruthy : J → Bool
  | .null => false
  | .jb b => b
  | .jn n => n != 0
  | .js s => s != ""
  | .jarr l => !l.isEmpty
  | .jobj kvs => !kvs.isEmpty

/-- `d.get(k)` on a Python dict modelled as an association list. -/
def jGet (k : String) (kvs : List (String × J)) : Option J :=
  (kvs.find? (fun kv => kv.1 == k)).map (·.2)

/-- `k in d` for a Python dict. -/
def hasKey (k : String) (kvs : List (String × J)) : Bool :=
  kvs.any (fun kv => kv.1 == k)

/-- Whitespace for Python's `str.strip()` (ASCII whitespace). -/
def pyIsSpace (c : Char) : Bool :=
  c == ' ' || c == '\t' || c == '\n' || c == '\r' || c == '\x0b' || c == '\x0c'

/-- Python `str.strip()`: drop whitespace from both ends. -/
def pyStrip (s : String) : String :=
  String.mk (((s.toList.dropWhile pyIsSpace).reverse.dropWhile pyIsSpace).reverse)

/-- Helper for substring search over character lists. -/
def strContainsAux (needle : List Char) : List Char → Bool
  | [] => needle.isEmpty
  | c :: t => needle.isPrefixOf (c :: t) || strContainsAux needle t

/-- Python `needle in hay` on strings (substring test). -/
def strContains (hay needle : String) : Bool :=
  strContainsAux needle.toList hay.toList

/-- Python `str.lower()`, character-wise (the source's keys are ASCII). -/
def pyLower (s : String) : String :=
  String.mk (s.toList.map Char.toLower)

/-- `"stream" in key.lower()`: the stream-key test of the flag stripper. -/
def hasStreamKey (k : String) : Bool :=
  strContains (pyLower k) "stream"

/-- One content part: `{type: ..., text: ...}`.  `text = none` models an
absent `text` key. -/
structure Part where
  ptype : String
  text : Option String
  deriving DecidableEq

/-- Message content: Python `None`/absent, a plain string, or a list of
typed parts. -/
inductive MC where
  | nullc
  | str (s : String)
  | parts (ps : List Part)
  deriving DecidableEq

/-- The `function` object of a tool call. -/
structure Fn where
  name : String
  args : String
  deriving DecidableEq

/-- A tool call `{id, type, function}`; `none` fields model absent keys. -/
structure TCall where
  id : Option String
  ctype : Option String
  fn : Option Fn
  deriving DecidableEq

/-- The `tool_calls` slot of a message: key absent, key present with
value `None`, or a list of tool calls. -/
inductive MTC where
  | absent
  | nullv
  | calls (l : List TCall)
  deriving DecidableEq

/-- A chat message as the pipeline sees it.  `extra` carries all keys
other than role/content/tool_calls/tool_call_id; the per-message
conversion copies the dict, so these keys pass through unchanged. -/
structure Msg where
  role : Option String
  content : MC
  toolCalls : MTC
  toolCallId : Option String
  extra : List (String × J)

/-- `normalize_content` (utils.py:61-86): `None` to `""`, strings kept
unchanged, part lists collapsed to the newline-join of their text
parts, stripped. -/
def normalize_content : MC → String
  | .nullc => ""
  | .str s => s
  | .parts ps =>
    pyStrip (String.intercalate "\n"
      (ps.filterMap fun p => if p.ptype == "text" then some (p.text.getD "") else none))

/-- Tool-message content normalization (utils.py:116-126): unlike
`normalize_content`, list content is concatenated with no separator and
no stripping. -/
def toolMsgContent : MC → String
  | .nullc => ""
  | .str s => s
  | .parts ps =>
    String.join (ps.filterMap fun p => if p.ptype == "text" then some (p.text.getD "") else none)

/-- Conversion of one assistant tool call (utils.py:143-162): kept only
when both `id` and `function` keys are present; `type` defaults to
`"function"`; the transient `index` field is dropped (the Mistral dict
is rebuilt from scratch, so it never carries one). -/
def convertToolCall (tc : TCall) : Option TCall :=
  if tc.id.isSome && tc.fn.isSome then
    some { id := tc.id, ctype := some (tc.ctype.getD "function"), fn := tc.fn }
  else none

/-- Python truthiness of the `tool_calls` slot. -/
def mtcTruthy : MTC → Bool
  | .calls l => !l.isEmpty
  | _ => false

/-- `msg.get("tool_calls") is None`: absent key or `None` value. -/
def mtcIsNoneLike : MTC → Bool
  | .absent => true
  | .nullv => true
  | .calls _ => false

/-- `convert_openai_to_mistral_message` (utils.py:89-189).  A `.nullv`
`tool_calls` slot on an assistant input is mapped to `.nullv`; the
source would raise a `TypeError` there (`len(None)` inside an eagerly
evaluated debug log), so no theorem below traverses that branch. -/
def convert_openai_to_mistral_message (m : Msg) : Option Msg :=
  match m.role with
  | some "tool" =>
    if m.toolCallId = none ∨ m.toolCallId = some "" then none
    else some { m with content := .str (toolMsgContent m.content) }
  | some "assistant" =>
    let tc2 : MTC :=
      match m.toolCalls with
      | .absent => .absent
      | .nullv => .nullv
      | .calls l =>
        let c := l.filterMap convertToolCall
        if c.isEmpty then .nullv else .calls c
    let s := normalize_content m.content
    if (s == "") && mtcIsNoneLike tc2 then none
    else some { m with content := if s == "" then .nullc else .str s, toolCalls := tc2 }
  | some "user" => some { m with content := .str (normalize_content m.content) }
  | some "system" => some { m with content := .str (normalize_content m.content) }
  | _ => none

/-- `validate_tool_call_correspondence` (utils.py:192-224): only logs;
returns the messages unchanged. -/
def validate_tool_call_correspondence (l : List Msg) : List Msg := l

/-- Keys of `tool_calls_by_id` (utils.py:260-264): ids of all tool
calls carried by assistant messages with a truthy `tool_calls` list. -/
def emittedIds (l : List Msg) : List (Option String) :=
  l.foldr (fun m acc =>
    (if m.role = some "assistant" ∧ mtcTruthy m.toolCalls then
      (match m.toolCalls with
       | .calls tcs => tcs.map (·.id)
       | _ => [])
     else []) ++ acc) []

/-- Keys of `tool_responses_by_id` (utils.py:266-269): the
`tool_call_id` of every tool message. -/
def responseIds (l : List Msg) : List (Option String) :=
  l.filterMap fun m => if m.role = some "tool" then some m.toolCallId else none

/-- The removal pass (utils.py:271-296): a tool message is removed when
its id was never emitted, or it is the last message of the (original)
sequence, or the (original) next message is a user message.  Marks are
taken against original positions; the removed messages' ids are
collected into `tool_ids_to_remove`. -/
def removePass (emitted : List (Option String)) : List Msg → List Msg × List (Option String)
  | [] => ([], [])
  | [m] =>
    if m.role = some "tool" then ([], [m.toolCallId]) else ([m], [])
  | m :: m2 :: t =>
    let r := removePass emitted (m2 :: t)
    if m.role = some "tool" ∧ (m.toolCallId ∉ emitted ∨ m2.role = some "user") then
      (r.1, m.toolCallId :: r.2)
    else
      (m :: r.1, r.2)

/-- Pruning of one message (utils.py:299-317): an assistant message
with a truthy `tool_calls` list keeps only the calls whose id has a
response and was not removed; an emptied list is popped entirely and
empty content replaced by a single space. -/
def pruneOne (responses removed : List (Option String)) (m : Msg) : Msg :=
  if m.role = some "assistant" ∧ mtcTruthy m.toolCalls then
    match m.toolCalls with
    | .calls tcs =>
      let f := tcs.filter fun tc => tc.id ∈ responses ∧ tc.id ∉ removed
      if f.isEmpty then
        { m with toolCalls := .absent,
                 content := if m.content = .nullc ∨ m.content = .str "" then .str " "
                            else m.content }
      else { m with toolCalls := .calls f }
    | _ => m
  else m

/-- The pruning pass over the whole sequence (utils.py:298-317). -/
def prunePass (responses removed : List (Option String)) (l : List Msg) : List Msg :=
  l.map (pruneOne responses removed)

/-- The synthetic trailing user message (utils.py:331). -/
def dummyUser : Msg :=
  { role := some "user", content := .str " ", toolCalls := .absent,
    toolCallId := none, extra := [] }

/-- The generation-prompt trailer (utils.py:326-332): when the sequence
is non-empty, ends in an assistant message and
`body.get("add_generation_prompt", True)` is truthy, append a dummy
user message. -/
def addTrailer (agp : Option J) (l : List Msg) : List Msg :=
  match l.getLast? with
  | some m =>
    if m.role = some "assistant" ∧ pyTruthy (agp.getD (.jb true)) then l ++ [dummyUser]
    else l
  | none => l

/-- The message pipeline of `sanitize_request_body` (utils.py:244-332):
per-message conversion, correspondence validation, removal of
problematic tool responses, pruning of orphaned tool calls, and the
generation-prompt trailer.  `agp` is the envelope's
`add_generation_prompt` value. -/
def repairMessages (msgs : List Msg) (agp : Option J) : List Msg :=
  let conv := validate_tool_call_correspondence
    (msgs.filterMap convert_openai_to_mistral_message)
  let emitted := emittedIds conv
  let responses := responseIds conv
  let r := removePass emitted conv
  addTrailer agp (prunePass responses r.2 r.1)

/-- Keys kept by the top-level sweep (utils.py:343-347): a key
containing "stream" (case-insensitively) is removed unless its
lowercase form is exactly "stream". -/
def topLevelKeep (k : String) : Bool :=
  !(hasStreamKey k && pyLower k != "stream")

/-- Remove every stream-containing key (the literal `stream` key
included) from an object's top level; non-objects pass through
(`isinstance(..., dict)` guards in the source). -/
def stripObjKeys : J → J
  | .jobj kvs => .jobj (kvs.filter fun kv => !hasStreamKey kv.1)
  | v => v

/-- Per-tool stripping (utils.py:360-371): stream-containing keys are
removed from the tool object, then from its `function` object when that
is a dict. -/
def stripToolDecl : J → J
  | .jobj kvs =>
    .jobj ((kvs.filter fun kv => !hasStreamKey kv.1).map fun kv =>
      if kv.1 == "function" then (kv.1, stripObjKeys kv.2) else kv)
  | v => v

/-- The `tools` sweep (utils.py:359-371): applied to each element when
the value is a list; a non-list `tools` value yields no dict elements
to strip. -/
def stripToolsEntry : J → J
  | .jarr ts => .jarr (ts.map stripToolDecl)
  | v => v

/-- The generic nested sweep (utils.py:374-386): dict values lose their
stream-containing keys; dict elements of list values likewise; scalars
pass through. -/
def stripGenericEntry : J → J
  | .jarr xs => .jarr (xs.map stripObjKeys)
  | v => stripObjKeys v

/-- The whole flag-stripping pass over the envelope's non-message keys,
in source order: top-level filter, then the `tools` sweep, then the
generic nested sweep.  The message sweep (utils.py:350-356) acts on the
pre-conversion message list, which the returned body does not retain
(it is replaced by the converted messages at utils.py:394), so it has
no effect on the output and no counterpart here. -/
def stripRest (rest : List (String × J)) : List (String × J) :=
  ((rest.filter fun kv => topLevelKeep kv.1).map fun kv =>
      if kv.1 == "tools" then (kv.1, stripToolsEntry kv.2) else kv).map
    fun kv => (kv.1, stripGenericEntry kv.2)

/-- A request envelope: the message list plus every other top-level key
in insertion order. -/
structure ReqBody where
  messages : List Msg
  rest : List (String × J)

/-- `sanitize_request_body` (utils.py:227-399): repair the message
sequence, drop `continue_final_message` when it clashes with
`add_generation_prompt`, and strip stream-named keys when the request
does not stream. -/
def sanitize_request_body (b : ReqBody) : ReqBody :=
  let rest1 :=
    if pyTruthy ((jGet "add_generation_prompt" b.rest).getD .null) &&
       pyTruthy ((jGet "continue_final_message" b.rest).getD .null) then
      b.rest.filter fun kv => kv.1 != "continue_final_message"
    else b.rest
  let msgs := repairMessages b.messages (jGet "add_generation_prompt" b.rest)
  let streamVal := (jGet "stream" b.rest).getD (.jb false)
  { messages := msgs,
    rest := if pyTruthy streamVal then rest1 else stripRest rest1 }

/-!  Response adapter (`sanitize_response_body`, utils.py:402-428).
The source walks a dynamically typed response; type misuse raises a
`TypeError`, modelled as `Except.error ()`. -/

/-- Python `for x in value`: lists yield elements, strings their
characters, dicts their keys; other values raise. -/
def pyIterate : J → Except Unit (List J)
  | .jarr xs => .ok xs
  | .js s => .ok (s.toList.map fun c => .js (String.mk [c]))
  | .jobj kvs => .ok (kvs.map fun kv => .js kv.1)
  | _ => .error ()

/-- `x == needle` for a string needle against a list element. -/
def jIsStr (x : J) (s : String) : Bool :=
  match x with
  | .js t => t == s
  | _ => false

/-- Python `needle in value` for a string needle: key membership on
dicts, element equality on lists, substring on strings; raises
otherwise. -/
def pyContains (needle : String) : J → Except Unit Bool
  | .jobj kvs => .ok (hasKey needle kvs)
  | .jarr xs => .ok (xs.any fun x => jIsStr x needle)
  | .js t => .ok (strContains t needle)
  | _ => .error ()

/-- Python `value[k]` for a string key: dict lookup (`KeyError` when
missing); every other receiver raises a `TypeError`. -/
def pySubscript (j : J) (k : String) : Except Unit J :=
  match j with
  | .jobj kvs =>
    match jGet k kvs with
    | some v => .ok v
    | none => .error ()
  | _ => .error ()

/-- Python dict assignment `d[k] = v`: replace the value in place when
the key exists, else append. -/
def pySetKey (k : String) (v : J) (kvs : List (String × J)) : List (String × J) :=
  if hasKey k kvs then kvs.map (fun kv => if kv.1 == k then (k, v) else kv)
  else kvs ++ [(k, v)]

/-- Replace the value of an existing key of an object; non-objects are
returned unchanged (unreachable in the uses below). -/
def jSetVal (j : J) (k : String) (v : J) : J :=
  match j with
  | .jobj kvs => .jobj (kvs.map fun kv => if kv.1 == k then (k, v) else kv)
  | j => j

/-- `tool_call["index"] = idx` over the enumerated tool calls
(utils.py:425-426): item assignment on a non-dict raises. -/
def setIndices (i : Nat) : List J → Except Unit (List J)
  | [] => .ok []
  | .jobj kvs :: t =>
    match setIndices (i + 1) t with
    | .ok t2 => .ok (.jobj (pySetKey "index" (.jn i) kvs) :: t2)
    | .error e => .error e
  | _ :: _ => .error ()

/-- Enumerate-and-assign over the `tool_calls` value: iterate it, then
set `index` on each element. -/
def setIndicesJ (tcs : J) : Except Unit J :=
  match pyIterate tcs with
  | .ok items =>
    match setIndices 0 items with
    | .ok items2 => .ok (.jarr items2)
    | .error e => .error e
  | .error e => .error e

/-- Handling of one choice (utils.py:421-426): when the choice has a
`message` whose dict has a truthy `tool_calls`, every tool call gains
an `index` field; the in-place mutation of the nested dicts is modelled
by rebuilding the choice with the updated list. -/
def processChoice (c : J) : Except Unit J :=
  match pyContains "message" c with
  | .error e => .error e
  | .ok false => .ok c
  | .ok true =>
    match pySubscript c "message" with
    | .error e => .error e
    | .ok m =>
      match pyContains "tool_calls" m with
      | .error e => .error e
      | .ok false => .ok c
      | .ok true =>
        match pySubscript m "tool_calls" with
        | .error e => .error e
        | .ok tcs =>
          if pyTruthy tcs then
            match setIndicesJ tcs with
            | .error e => .error e
            | .ok tcs2 => .ok (jSetVal c "message" (jSetVal m "tool_calls" tcs2))
          else .ok c

/-- The loop over the choices. -/
def processChoices : List J → Except Unit (List J)
  | [] => .ok []
  | c :: t =>
    match processChoice c with
    | .error e => .error e
    | .ok c2 =>
      match processChoices t with
      | .error e => .error e
      | .ok t2 => .ok (c2 :: t2)

/-- `sanitize_response_body` (utils.py:402-428).  Non-dict responses
are returned unchanged; iterating a string or dict `choices` value
yields fresh strings on which no mutation can land, so a successful
pass leaves the body unchanged there. -/
def sanitize_response_body (rb : J) : Except Unit J :=
  match rb with
  | .jobj kvs =>
    if hasKey "choices" kvs then
      match jGet "choices" kvs with
      | some (.jarr cs) =>
        match processChoices cs with
        | .error e => .error e
        | .ok cs2 =>
          .ok (.jobj (kvs.map fun kv => if kv.1 == "choices" then (kv.1, .jarr cs2) else kv))
      | some (.js s) =>
        match processChoices (s.toList.map fun c => .js (String.mk [c])) with
        | .error e => .error e
        | .ok _ => .ok (.jobj kvs)
      | some (.jobj ckvs) =>
        match processChoices (ckvs.map fun kv => .js kv.1) with
        | .error e => .error e
        | .ok _ => .ok (.jobj kvs)
      | some _ => .error ()
      | none => .ok (.jobj kvs)
    else .ok (.jobj kvs)
  | rb => .ok rb

/-! ## Theorems -/

/-- C8: the Content Normalizer equations.  `null` content normalizes to
the empty string; a list of text parts normalizes to their text fields
newline-joined (and stripped, which is the identity on these examples);
non-text parts are discarded.  `normalize_content` is a total Lean
function, so it returns a string on every input and has no failure
mode. -/
theorem c8_normalize_content_equations :
    normalize_content .nullc = "" ∧
    normalize_content (.parts [⟨"text", some "a"⟩, ⟨"text", some "b"⟩]) = "a\nb" ∧
    normalize_content (.parts [⟨"image", none⟩]) = "" :=
  ⟨rfl, by decide, by decide⟩

/-- C10: the Content Normalizer returns plain-string content unchanged
(utils.py:74-75 return the string as-is, with no trimming), and is
therefore idempotent on its own outputs. -/
theorem c10_normalize_string_identity :
    (∀ s : String, normalize_content (.str s) = s) ∧
    (∀ c : MC, normalize_content (.str (normalize_content c)) = normalize_content c) :=
  ⟨fun _ => rfl, fun _ => rfl⟩

/-- A tool message whose content is the part list `[text "a", text "b"]`. -/
def c7ToolMsg : Msg :=
  { role := some "tool",
    content := .parts [⟨"text", some "a"⟩, ⟨"text", some "b"⟩],
    toolCalls := .absent, toolCallId := some "x", extra := [] }

/-- C7 fails: the transcoder concatenates the text parts of a tool
message with no separator (utils.py:118-121), yielding `"ab"`, whereas
the Content Normalizer (which the claim says is applied) yields
`"a\nb"`. -/
theorem c7_counterexample :
    (convert_openai_to_mistral_message c7ToolMsg).map Msg.content = some (.str "ab") ∧
    MC.str (normalize_content c7ToolMsg.content) = MC.str "a\nb" ∧
    MC.str "ab" ≠ MC.str "a\nb" :=
  ⟨by decide, by decide, by decide⟩

/-- C7 amended: a tool-role message is dropped exactly when its
`tool_call_id` is absent or empty; otherwise it is kept with its
content replaced by `toolMsgContent` (string content unchanged, list
content the separator-free concatenation of its text parts, absent
content the empty string) and every other field unchanged. -/
theorem c7_amended_tool_transcoding (m : Msg) (h : m.role = some "tool") :
    convert_openai_to_mistral_message m =
      if m.toolCallId = none ∨ m.toolCallId = some "" then none
      else some { m with content := .str (toolMsgContent m.content) } := by
  obtain ⟨r, c, tc, tid, ex⟩ := m
  replace h : r = some "tool" := h
  subst h
  rfl

/-- Witness for C7: the amended statement applied to the concrete tool
message above. -/
theorem c7_amended_witness :
    c7ToolMsg.role = some "tool" ∧
    convert_openai_to_mistral_message c7ToolMsg =
      (if c7ToolMsg.toolCallId = none ∨ c7ToolMsg.toolCallId = some "" then none
       else some { c7ToolMsg with content := .str (toolMsgContent c7ToolMsg.content) }) :=
  ⟨rfl, c7_amended_tool_transcoding c7ToolMsg rfl⟩

/-- After the trailer step, the last message is never an assistant
message when `add_generation_prompt` defaults to or evaluates to a
truthy value. -/
theorem addTrailer_last_not_assistant (agp : Option J)
    (h : pyTruthy (agp.getD (.jb true)) = true) (l : List Msg) :
    ((addTrailer agp l).getLast?.all fun m => m.role != some "assistant") = true := by
  unfold addTrailer
  cases hl : l.getLast? with
  | none => simp [hl]
  | some m0 =>
    by_cases hr : m0.role = some "assistant"
    · simp [hl, hr, h, List.getLast?_concat, dummyUser]
    · simp [hl, hr]

/-- C5: the trailer invariant.  When the envelope's
`add_generation_prompt` is `true` or absent (it defaults to true), the
sanitized message sequence never ends with an assistant message: a
trailing assistant message gets a synthetic single-space user message
appended after it (utils.py:326-332). -/
theorem c5_trailer_invariant (b : ReqBody)
    (hagp : jGet "add_generation_prompt" b.rest = none ∨
            jGet "add_generation_prompt" b.rest = some (.jb true)) :
    (((sanitize_request_body b).messages).getLast?.all
      fun m => m.role != some "assistant") = true := by
  have h : pyTruthy ((jGet "add_generation_prompt" b.rest).getD (.jb true)) = true := by
    rcases hagp with h1 | h1 <;> simp [h1, pyTruthy]
  show ((addTrailer _ _).getLast?.all fun m => m.role != some "assistant") = true
  exact addTrailer_last_not_assistant _ h _

/-- Witness for C5: a request whose repaired sequence ends in an
assistant message; the sanitized output ends with the dummy user
message instead. -/
theorem c5_witness :
    (jGet "add_generation_prompt" ([] : List (String × J)) = none ∨
     jGet "add_generation_prompt" ([] : List (String × J)) = some (.jb true)) ∧
    (((sanitize_request_body
        { messages := [{ role := some "assistant", content := .str "ok",
                         toolCalls := .absent, toolCallId := none, extra := [] }],
          rest := [] }).messages).getLast?.all
      fun m => m.role != some "assistant") = true :=
  ⟨Or.inl rfl,
   c5_trailer_invariant
     { messages := [{ role := some "assistant", content := .str "ok",
                      toolCalls := .absent, toolCallId := none, extra := [] }],
       rest := [] } (Or.inl rfl)⟩

/-- Shape invariant the transcoder establishes on assistant messages:
content is either `None` or a non-empty string, and when it is `None`
the message carries a non-empty tool-call list. -/
def convInv (m : Msg) : Prop :=
  m.role = some "assistant" →
    (m.content = .nullc ∨ ∃ s, m.content = .str s ∧ s ≠ "") ∧
    (m.content = .nullc → ∃ l, m.toolCalls = .calls l ∧ l ≠ [])

/-- The content the assistant branch produces is `None` or a non-empty
string. -/
theorem assistantContentShape (s : String) :
    (if (s == "") = true then MC.nullc else MC.str s) = .nullc ∨
    ∃ t, (if (s == "") = true then MC.nullc else MC.str s) = .str t ∧ t ≠ "" := by
  by_cases hs : s == ""
  · left; simp [hs]
  · right; exact ⟨s, by simp [hs], by simpa using hs⟩

/-- The assistant branch's content is `None` only when the normalized
string was empty. -/
theorem assistantContentNull (s : String)
    (h : (if (s == "") = true then MC.nullc else MC.str s) = .nullc) : (s == "") = true := by
  by_cases hs : s == ""
  · exact hs
  · simp [hs] at h

/-- The kept-assistant record of the transcoder satisfies `convInv`,
given the keep-guard and the shape of the converted `tool_calls`. -/
theorem convInv_assistant (r tid : Option String) (cnt : MC) (tc2 : MTC)
    (ex : List (String × J))
    (hguard : ¬((normalize_content cnt == "") && mtcIsNoneLike tc2) = true)
    (htc : tc2 = .absent ∨ tc2 = .nullv ∨ ∃ cl, tc2 = .calls cl ∧ cl ≠ []) :
    convInv { role := r,
              content := if (normalize_content cnt == "") = true then MC.nullc
                         else MC.str (normalize_content cnt),
              toolCalls := tc2, toolCallId := tid, extra := ex } := by
  intro _
  refine ⟨assistantContentShape _, fun hc => ?_⟩
  have hs := assistantContentNull _ hc
  rw [hs, Bool.true_and] at hguard
  rcases htc with h1 | h1 | ⟨cl, h1, h2⟩
  · rw [h1] at hguard; exact absurd rfl hguard
  · rw [h1] at hguard; exact absurd rfl hguard
  · exact ⟨cl, by simp [h1], h2⟩

/-- Every message the transcoder keeps satisfies `convInv`. -/
theorem convert_convInv (m m2 : Msg)
    (h : convert_openai_to_mistral_message m = some m2) : convInv m2 := by
  unfold convert_openai_to_mistral_message at h
  split at h
  · -- tool branch
    split at h
    · exact absurd h (by simp)
    · injection h with h2
      subst h2
      intro hrole
      simp_all
  · -- assistant branch: first the match on the tool_calls slot
    rename_i heq
    split at h
    · -- absent
      simp only [] at h
      split at h
      · exact absurd h (by simp)
      · rename_i hcond
        injection h with h2
        subst h2
        exact convInv_assistant _ _ _ _ _ hcond (Or.inl rfl)
    · -- null value
      simp only [] at h
      split at h
      · exact absurd h (by simp)
      · rename_i hcond
        injection h with h2
        subst h2
        exact convInv_assistant _ _ _ _ _ hcond (Or.inr (Or.inl rfl))
    · -- list of calls
      rename_i l hl
      simp only [] at h
      by_cases he : (l.filterMap convertToolCall).isEmpty
      · simp only [he, if_true] at h
        split at h
        · exact absurd h (by simp)
        · rename_i hcond
          injection h with h2
          subst h2
          exact convInv_assistant _ _ _ _ _ hcond (Or.inr (Or.inl rfl))
      · simp only [Bool.not_eq_true] at he
        simp only [he, Bool.false_eq_true, if_false] at h
        split at h
        · exact absurd h (by simp)
        · rename_i hcond
          injection h with h2
          subst h2
          exact convInv_assistant _ _ _ _ _ hcond
            (Or.inr (Or.inr ⟨_, rfl, by simpa [List.isEmpty_iff] using he⟩))
  · -- user branch
    injection h with h2
    subst h2
    intro hrole
    simp_all
  · -- system branch
    injection h with h2
    subst h2
    intro hrole
    simp_all
  · exact absurd h (by simp)

/-- The removal pass only ever deletes messages: its kept part is a
sub-collection of the input. -/
theorem removePass_kept_subset (e : List (Option String)) :
    ∀ l : List Msg, ∀ x ∈ (removePass e l).1, x ∈ l := by
  intro l
  induction l with
  | nil => simp [removePass]
  | cons m t ih =>
    cases t with
    | nil =>
      intro x hx
      by_cases hm : m.role = some "tool"
      · simp [removePass, hm] at hx
      · simp [removePass, hm] at hx
        simp [hx]
    | cons m2 t2 =>
      intro x hx
      simp only [removePass] at hx
      split at hx
      · exact List.mem_cons_of_mem m (ih x hx)
      · rcases List.mem_cons.mp hx with h1 | h1
        · exact h1 ▸ List.mem_cons_self m _
        · exact List.mem_cons_of_mem m (ih x h1)

/-- Pruning never changes a message's role. -/
theorem pruneOne_role (resp rm : List (Option String)) (m : Msg) :
    (pruneOne resp rm m).role = m.role := by
  unfold pruneOne
  split
  · split
    all_goals first
      | rfl
      | (simp only []
         split <;> rfl)
  · rfl

/-- Pruning leaves non-assistant messages untouched. -/
theorem pruneOne_of_not_assistant (resp rm : List (Option String)) (m : Msg)
    (h : m.role ≠ some "assistant") : pruneOne resp rm m = m := by
  unfold pruneOne
  rw [if_neg]
  intro hc
  exact h hc.1

/-- The trailer step only appends the dummy user message. -/
theorem addTrailer_mem (agp : Option J) (l : List Msg) (x : Msg)
    (hx : x ∈ addTrailer agp l) : x ∈ l ∨ x = dummyUser := by
  unfold addTrailer at hx
  split at hx
  · split at hx
    · rcases List.mem_append.mp hx with h1 | h1
      · exact Or.inl h1
      · exact Or.inr (List.mem_singleton.mp h1)
    · exact Or.inl hx
  · exact Or.inl hx

/-- A message of the repaired sequence is either the dummy trailer or a
pruned form of a transcoded input message. -/
theorem repairMessages_mem (msgs : List Msg) (agp : Option J) (m : Msg)
    (hm : m ∈ repairMessages msgs agp) :
    m = dummyUser ∨
    ∃ y, (∃ x ∈ msgs, convert_openai_to_mistral_message x = some y) ∧
      ∃ resp rm, m = pruneOne resp rm y := by
  unfold repairMessages at hm
  rcases addTrailer_mem _ _ _ hm with h1 | h1
  · rcases List.mem_map.mp h1 with ⟨y, hy, hym⟩
    have hy2 := removePass_kept_subset _ _ y hy
    rcases List.mem_filterMap.mp hy2 with ⟨x, hx, hxy⟩
    exact Or.inr ⟨y, ⟨x, hx, hxy⟩, _, _, hym.symm⟩
  · exact Or.inl h1

/-- Pruning preserves the no-empty-assistant property. -/
theorem pruneOne_not_empty (resp rm : List (Option String)) (m : Msg)
    (hinv : convInv m) (hrole : (pruneOne resp rm m).role = some "assistant") :
    ¬(((pruneOne resp rm m).content = .nullc ∨ (pruneOne resp rm m).content = .str "") ∧
      ((pruneOne resp rm m).toolCalls = .absent ∨ (pruneOne resp rm m).toolCalls = .nullv ∨
       (pruneOne resp rm m).toolCalls = .calls [])) := by
  rw [pruneOne_role] at hrole
  have hinv2 := hinv hrole
  unfold pruneOne
  by_cases hcond : m.role = some "assistant" ∧ mtcTruthy m.toolCalls
  · rw [if_pos hcond]
    rcases htc : m.toolCalls with _ | _ | tcs
    · rw [htc] at hcond; simp [mtcTruthy] at hcond
    · rw [htc] at hcond; simp [mtcTruthy] at hcond
    · simp only []
      by_cases hf : (tcs.filter fun tc => tc.id ∈ resp ∧ tc.id ∉ rm).isEmpty
      · rw [if_pos hf]
        rcases hinv2.1 with hc | ⟨s, hc, hs⟩
        · simp [hc]
        · simp [hc, hs]
      · rw [if_neg hf]
        simp only [List.isEmpty_iff] at hf
        intro hboth
        rcases hboth.2 with h2 | h2 | h2
        · exact MTC.noConfusion h2
        · exact MTC.noConfusion h2
        · exact hf (by injection h2)
  · rw [if_neg hcond]
    have htruthy : ¬ (mtcTruthy m.toolCalls = true) := fun h => hcond ⟨hrole, h⟩
    rcases hinv2.1 with hc | ⟨s, hc, hs⟩
    · rcases hinv2.2 hc with ⟨l, hl, hlne⟩
      exact absurd (by simp [mtcTruthy, hl, List.isEmpty_iff, hlne]) htruthy
    · simp [hc, hs]

/-- C6: the no-empty-message invariant.  No assistant message of the
repaired sequence has both absent/empty content and an empty or absent
`tool_calls` list: the transcoder drops assistant messages with neither
(utils.py:173-175), and when pruning empties a `tool_calls` list it
pops the field and installs a single-space content if the content was
absent or empty (utils.py:312-317). -/
theorem c6_no_empty_assistant (msgs : List Msg) (agp : Option J) (m : Msg)
    (hm : m ∈ repairMessages msgs agp) (hrole : m.role = some "assistant") :
    ¬((m.content = .nullc ∨ m.content = .str "") ∧
      (m.toolCalls = .absent ∨ m.toolCalls = .nullv ∨ m.toolCalls = .calls [])) := by
  rcases repairMessages_mem msgs agp m hm with h1 | ⟨y, ⟨x, hx, hxy⟩, resp, rm, hprune⟩
  · rw [h1] at hrole
    exact absurd hrole (by simp [dummyUser])
  · have hinv := convert_convInv x y hxy
    subst hprune
    exact pruneOne_not_empty resp rm y hinv hrole

/-- The assistant message used to witness C6, and its repaired form. -/
def c6InMsg : Msg :=
  { role := some "assistant", content := .str "ok", toolCalls := .absent,
    toolCallId := none, extra := [] }

/-- Witness for C6: the repaired form of a one-assistant conversation
contains an assistant message, and it is not empty. -/
theorem c6_witness :
    c6InMsg ∈ repairMessages [c6InMsg] none ∧ c6InMsg.role = some "assistant" ∧
    ¬((c6InMsg.content = .nullc ∨ c6InMsg.content = .str "") ∧
      (c6InMsg.toolCalls = .absent ∨ c6InMsg.toolCalls = .nullv ∨
       c6InMsg.toolCalls = .calls [])) :=
  ⟨List.Mem.head _, rfl,
   c6_no_empty_assistant [c6InMsg] none c6InMsg (List.Mem.head _) rfl⟩

/-- An assistant message carrying a single tool call with the given id. -/
def asstWithCalls (ids : List String) : Msg :=
  { role := some "assistant", content := .nullc,
    toolCalls := .calls (ids.map fun i =>
      { id := some i, ctype := some "function", fn := some { name := "f", args := "{}" } }),
    toolCallId := none, extra := [] }

/-- A tool response message with the given `tool_call_id`. -/
def toolResp (i : String) : Msg :=
  { role := some "tool", content := .str "r", toolCalls := .absent,
    toolCallId := some i, extra := [] }

/-- C2 fails: in `[assistant(calls a), tool a, tool a]`, the second
`tool a` is the last message and is removed, which puts `a` into
`tool_ids_to_remove`; the pruning pass then strips call `a` from the
assistant message even though the first `tool a` survives.  The
surviving tool message's id thus appears in no assistant message of the
output at all — in particular in no earlier one — refuting the pairing
invariant. -/
theorem c2_counterexample :
    (repairMessages [asstWithCalls ["a"], toolResp "a", toolResp "a"] none).map
        (fun m => (m.role, m.toolCallId)) =
      [(some "assistant", none), (some "tool", some "a")] ∧
    (repairMessages [asstWithCalls ["a"], toolResp "a", toolResp "a"] none).map
        Msg.toolCalls = [.absent, .absent] :=
  ⟨by decide, by decide⟩

/-- A tool message kept by the removal pass has an emitted id. -/
theorem removePass_kept_tool_emitted (e : List (Option String)) :
    ∀ l : List Msg, ∀ x ∈ (removePass e l).1, x.role = some "tool" → x.toolCallId ∈ e := by
  intro l
  induction l with
  | nil => simp [removePass]
  | cons m t ih =>
    cases t with
    | nil =>
      intro x hx hxr
      by_cases hm : m.role = some "tool"
      · simp [removePass, hm] at hx
      · simp [removePass, hm] at hx
        rw [hx] at hxr
        exact absurd hxr hm
    | cons m2 t2 =>
      intro x hx hxr
      simp only [removePass] at hx
      split at hx
      · exact ih x hx hxr
      · rename_i hcond
        rcases List.mem_cons.mp hx with h1 | h1
        · subst h1
          rcases not_and_or.mp hcond with h2 | h2
          · exact absurd hxr h2
          · rcases not_or.mp h2 with ⟨h3, _⟩
            exact not_not.mp h3
        · exact ih x h1 hxr

/-- Every input message either survives the removal pass or is a tool
message whose id is recorded in the removed-id list. -/
theorem removePass_complete (e : List (Option String)) :
    ∀ l : List Msg, ∀ x ∈ l,
      x ∈ (removePass e l).1 ∨
      (x.role = some "tool" ∧ x.toolCallId ∈ (removePass e l).2) := by
  intro l
  induction l with
  | nil => simp
  | cons m t ih =>
    cases t with
    | nil =>
      intro x hx
      rcases List.mem_singleton.mp hx with rfl
      by_cases hm : x.role = some "tool"
      · exact Or.inr ⟨hm, by simp [removePass, hm]⟩
      · exact Or.inl (by simp [removePass, hm])
    | cons m2 t2 =>
      intro x hx
      simp only [removePass]
      rcases List.mem_cons.mp hx with rfl | h1
      · split
        · rename_i hcond
          exact Or.inr ⟨hcond.1, List.mem_cons_self _ _⟩
        · exact Or.inl (List.mem_cons_self _ _)
      · rcases ih x h1 with h2 | ⟨h2, h3⟩
        · split
          · exact Or.inl h2
          · exact Or.inl (List.mem_cons_of_mem _ h2)
        · split
          · exact Or.inr ⟨h2, List.mem_cons_of_mem _ h3⟩
          · exact Or.inr ⟨h2, h3⟩

/-- An id in `responseIds` comes from a tool message of the list. -/
theorem responseIds_mem (l : List Msg) (x : Option String) (hx : x ∈ responseIds l) :
    ∃ m ∈ l, m.role = some "tool" ∧ m.toolCallId = x := by
  unfold responseIds at hx
  rcases List.mem_filterMap.mp hx with ⟨m, hm, hmx⟩
  by_cases hr : m.role = some "tool"
  · rw [if_pos hr] at hmx
    injection hmx with h2
    exact ⟨m, hm, hr, h2⟩
  · rw [if_neg hr] at hmx
    exact absurd hmx (by simp)

/-- The trailer step keeps every existing message. -/
theorem addTrailer_mem_of_mem (agp : Option J) (l : List Msg) (x : Msg)
    (hx : x ∈ l) : x ∈ addTrailer agp l := by
  unfold addTrailer
  split
  · split
    · exact List.mem_append_left _ hx
    · exact hx
  · exact hx

/-- The calls surviving the pruning of an assistant message all satisfy
the keep predicate of utils.py:303-306. -/
theorem pruneOne_calls_pred (resp rm : List (Option String)) (y : Msg) (tcs : List TCall)
    (hrole : y.role = some "assistant")
    (h : (pruneOne resp rm y).toolCalls = .calls tcs) :
    ∀ tc ∈ tcs, tc.id ∈ resp ∧ tc.id ∉ rm := by
  unfold pruneOne at h
  by_cases hcond : y.role = some "assistant" ∧ mtcTruthy y.toolCalls
  · rw [if_pos hcond] at h
    rcases htc : y.toolCalls with _ | _ | l
    · rw [htc] at hcond; simp [mtcTruthy] at hcond
    · rw [htc] at hcond; simp [mtcTruthy] at hcond
    · rw [htc] at h
      simp only [] at h
      by_cases hf : (l.filter fun tc => tc.id ∈ resp ∧ tc.id ∉ rm).isEmpty
      · rw [if_pos hf] at h
        exact absurd h (by simp)
      · rw [if_neg hf] at h
        have h2 : (l.filter fun tc => tc.id ∈ resp ∧ tc.id ∉ rm) = tcs := by
          injection h
        intro tc htcmem
        rw [← h2] at htcmem
        exact of_decide_eq_true (List.mem_filter.mp htcmem).2
  · rw [if_neg hcond] at h
    have hnt : ¬ (mtcTruthy y.toolCalls = true) := fun ht => hcond ⟨hrole, ht⟩
    rw [h] at hnt
    simp [mtcTruthy, List.isEmpty_iff] at hnt
    subst hnt
    intro tc htcmem
    exact absurd htcmem (List.not_mem_nil tc)

/-- C2 amended: after repair, every surviving tool message's
`tool_call_id` was emitted by some assistant message of the transcoded
sequence (not necessarily an earlier one), and every tool-call id still
carried by an assistant message of the output has at least one (not
exactly one) corresponding tool message in the output. -/
theorem c2_amended_pairing (msgs : List Msg) (agp : Option J) :
    (∀ m ∈ repairMessages msgs agp, m.role = some "tool" →
      m.toolCallId ∈ emittedIds (validate_tool_call_correspondence
        (msgs.filterMap convert_openai_to_mistral_message))) ∧
    (∀ m ∈ repairMessages msgs agp, m.role = some "assistant" →
      ∀ tcs, m.toolCalls = .calls tcs → ∀ tc ∈ tcs,
        ∃ m2 ∈ repairMessages msgs agp,
          m2.role = some "tool" ∧ m2.toolCallId = tc.id) := by
  have hconvEq : repairMessages msgs agp =
      addTrailer agp
        (prunePass
          (responseIds (validate_tool_call_correspondence
            (msgs.filterMap convert_openai_to_mistral_message)))
          (removePass (emittedIds (validate_tool_call_correspondence
            (msgs.filterMap convert_openai_to_mistral_message)))
            (validate_tool_call_correspondence
              (msgs.filterMap convert_openai_to_mistral_message))).2
          (removePass (emittedIds (validate_tool_call_correspondence
            (msgs.filterMap convert_openai_to_mistral_message)))
            (validate_tool_call_correspondence
              (msgs.filterMap convert_openai_to_mistral_message))).1) := rfl
  set conv := validate_tool_call_correspondence
    (msgs.filterMap convert_openai_to_mistral_message) with hconv
  constructor
  · intro m hm hmr
    rw [hconvEq] at hm
    rcases addTrailer_mem _ _ _ hm with h1 | h1
    · rcases List.mem_map.mp h1 with ⟨y, hy, hym⟩
      have hyr : y.role = some "tool" := by
        rw [← hym, pruneOne_role] at hmr
        exact hmr
      have hne : y.role ≠ some "assistant" := by
        rw [hyr]
        simp
      rw [pruneOne_of_not_assistant _ _ _ hne] at hym
      subst hym
      exact removePass_kept_tool_emitted _ _ y hy hmr
    · rw [h1] at hmr
      exact absurd hmr (by simp [dummyUser])
  · intro m hm hmr tcs htcs tc htc
    rw [hconvEq] at hm
    rcases addTrailer_mem _ _ _ hm with h1 | h1
    · rcases List.mem_map.mp h1 with ⟨y, hy, hym⟩
      have hyr : y.role = some "assistant" := by
        rw [← hym, pruneOne_role] at hmr
        exact hmr
      have hpred := pruneOne_calls_pred _ _ y tcs hyr (hym ▸ htcs) tc htc
      rcases responseIds_mem conv tc.id hpred.1 with ⟨m2, hm2, hm2r, hm2id⟩
      rcases removePass_complete _ conv m2 hm2 with h2 | ⟨_, h3⟩
      · refine ⟨m2, ?_, hm2r, hm2id⟩
        rw [hconvEq]
        apply addTrailer_mem_of_mem
        have hne : m2.role ≠ some "assistant" := by
          rw [hm2r]
          simp
        have : pruneOne (responseIds conv)
            (removePass (emittedIds conv) conv).2 m2 = m2 :=
          pruneOne_of_not_assistant _ _ _ hne
        rw [← this]
        exact List.mem_map_of_mem _ h2
      · rw [hm2id] at h3
        exact absurd h3 hpred.2
    · rw [h1] at hmr
      exact absurd hmr (by simp [dummyUser])

/-- Witness for C2's amended statement: the counterexample conversation
instantiated in both conjuncts. -/
theorem c2_amended_witness :
    (∀ m ∈ repairMessages [asstWithCalls ["a"], toolResp "a", toolResp "a"] none,
      m.role = some "tool" →
      m.toolCallId ∈ emittedIds (validate_tool_call_correspondence
        ([asstWithCalls ["a"], toolResp "a", toolResp "a"].filterMap
          convert_openai_to_mistral_message))) ∧
    (∀ m ∈ repairMessages [asstWithCalls ["a"], toolResp "a", toolResp "a"] none,
      m.role = some "assistant" →
      ∀ tcs, m.toolCalls = .calls tcs → ∀ tc ∈ tcs,
        ∃ m2 ∈ repairMessages [asstWithCalls ["a"], toolResp "a", toolResp "a"] none,
          m2.role = some "tool" ∧ m2.toolCallId = tc.id) :=
  c2_amended_pairing [asstWithCalls ["a"], toolResp "a", toolResp "a"] none

/-- C1 fails: repairing `[assistant(calls a b), tool a, tool b]` once
removes only the originally-last `tool b` and leaves `[assistant(calls
a), tool a]`, which now itself ends in a tool message; a second run
removes it, empties the assistant's calls and appends the trailer, so
`repair(repair(S)) ≠ repair(S)` (witnessed by the role lists). -/
theorem c1_counterexample :
    (repairMessages
        (repairMessages [asstWithCalls ["a", "b"], toolResp "a", toolResp "b"] none)
        none).map Msg.role = [some "assistant", some "user"] ∧
    (repairMessages [asstWithCalls ["a", "b"], toolResp "a", toolResp "b"] none).map
        Msg.role = [some "assistant", some "tool"] ∧
    ([some "assistant", some "user"] : List (Option String)) ≠
      [some "assistant", some "tool"] :=
  ⟨by decide, by decide, by decide⟩

/-- Messages on which one repair run is the identity: no `tool_calls`
slot, and a role/content combination the transcoder keeps unchanged. -/
def stableMsg (m : Msg) : Prop :=
  m.toolCalls = .absent ∧
  (((m.role = some "user" ∨ m.role = some "system") ∧ ∃ s, m.content = .str s) ∨
   (m.role = some "assistant" ∧ ∃ s, s ≠ "" ∧ m.content = .str s))

/-- The dummy trailer is stable. -/
theorem dummyUser_stable : stableMsg dummyUser :=
  ⟨rfl, Or.inl ⟨Or.inl rfl, " ", rfl⟩⟩

/-- Stable messages are not tool messages. -/
theorem stable_not_tool (m : Msg) (h : stableMsg m) : m.role ≠ some "tool" := by
  rcases h.2 with ⟨hr | hr, _⟩ | ⟨hr, _⟩ <;> rw [hr] <;> simp

/-- Stable messages have no truthy `tool_calls`. -/
theorem stable_not_truthy (m : Msg) (h : stableMsg m) : ¬ mtcTruthy m.toolCalls = true := by
  rw [h.1]
  simp [mtcTruthy]

/-- Transcoding a tool-free, calls-free input yields a stable message. -/
theorem convert_stable (x y : Msg) (hr : x.role ≠ some "tool") (ht : x.toolCalls = .absent)
    (h : convert_openai_to_mistral_message x = some y) : stableMsg y := by
  unfold convert_openai_to_mistral_message at h
  split at h
  · rename_i heq
    exact absurd heq hr
  · rename_i heq
    rw [ht] at h
    simp only [] at h
    by_cases hs : normalize_content x.content == ""
    · rw [if_pos (by simp [hs, mtcIsNoneLike])] at h
      exact absurd h (by simp)
    · rw [if_neg (by simp [hs, mtcIsNoneLike])] at h
      injection h with h2
      subst h2
      refine ⟨rfl, Or.inr ⟨heq, normalize_content x.content, by simpa using hs, ?_⟩⟩
      simp [hs]
  · rename_i heq
    injection h with h2
    subst h2
    exact ⟨ht, Or.inl ⟨Or.inl heq, _, rfl⟩⟩
  · rename_i heq
    injection h with h2
    subst h2
    exact ⟨ht, Or.inl ⟨Or.inr heq, _, rfl⟩⟩
  · exact absurd h (by simp)

/-- Transcoding is the identity on stable messages. -/
theorem convert_stable_fix (m : Msg) (h : stableMsg m) :
    convert_openai_to_mistral_message m = some m := by
  obtain ⟨r, c, tc, tid, ex⟩ := m
  obtain ⟨ht, hcase⟩ := h
  replace ht : tc = .absent := ht
  subst ht
  rcases hcase with ⟨hr | hr, s, hc⟩ | ⟨hr, s, hs, hc⟩
  · replace hr : r = some "user" := hr
    replace hc : c = .str s := hc
    subst hr; subst hc
    rfl
  · replace hr : r = some "system" := hr
    replace hc : c = .str s := hc
    subst hr; subst hc
    rfl
  · replace hr : r = some "assistant" := hr
    replace hc : c = .str s := hc
    subst hr; subst hc
    have hs2 : (s == "") = false := by simpa using hs
    simp [convert_openai_to_mistral_message, normalize_content, mtcIsNoneLike, hs2]

/-- The transcoding pass is the identity on stable sequences. -/
theorem filterMap_convert_id (l : List Msg) (h : ∀ m ∈ l, stableMsg m) :
    l.filterMap convert_openai_to_mistral_message = l := by
  induction l with
  | nil => rfl
  | cons m t ih =>
    rw [List.filterMap_cons, convert_stable_fix m (h m (List.mem_cons_self m t)),
      ih fun x hx => h x (List.mem_cons_of_mem m hx)]

/-- The removal pass is the identity on tool-free sequences. -/
theorem removePass_id_of_no_tool (e : List (Option String)) :
    ∀ l : List Msg, (∀ m ∈ l, m.role ≠ some "tool") → removePass e l = (l, []) := by
  intro l
  induction l with
  | nil => intro _; rfl
  | cons m t ih =>
    intro h
    have hm := h m (List.mem_cons_self m t)
    cases t with
    | nil => simp [removePass, hm]
    | cons m2 t2 =>
      have ih2 := ih fun x hx => h x (List.mem_cons_of_mem m hx)
      simp [removePass, hm, ih2]

/-- The pruning pass is the identity when no message has truthy calls. -/
theorem prunePass_id (resp rm : List (Option String)) :
    ∀ l : List Msg, (∀ m ∈ l, ¬ mtcTruthy m.toolCalls = true) →
      prunePass resp rm l = l := by
  intro l
  induction l with
  | nil => intro _; rfl
  | cons m t ih =>
    intro h
    have hm : pruneOne resp rm m = m := by
      unfold pruneOne
      rw [if_neg]
      exact fun hc => h m (List.mem_cons_self m t) hc.2
    have ih2 := ih fun x hx => h x (List.mem_cons_of_mem m hx)
    unfold prunePass at ih2 ⊢
    rw [List.map_cons, hm, ih2]

/-- The trailer step is idempotent. -/
theorem addTrailer_idem (agp : Option J) (l : List Msg) :
    addTrailer agp (addTrailer agp l) = addTrailer agp l := by
  cases hl : l.getLast? with
  | none =>
    have h1 : addTrailer agp l = l := by
      unfold addTrailer
      rw [hl]
    rw [h1, h1]
  | some m0 =>
    by_cases hcond : m0.role = some "assistant" ∧ pyTruthy (agp.getD (.jb true)) = true
    · have h1 : addTrailer agp l = l ++ [dummyUser] := by
        unfold addTrailer
        rw [hl]
        exact if_pos hcond
      have h2 : addTrailer agp (l ++ [dummyUser]) = l ++ [dummyUser] := by
        unfold addTrailer
        rw [List.getLast?_concat]
        refine if_neg ?_
        intro hc
        have h3 : dummyUser.role = some "assistant" := hc.1
        simp [dummyUser] at h3
      rw [h1, h2]
    · have h1 : addTrailer agp l = l := by
        unfold addTrailer
        rw [hl]
        exact if_neg hcond
      rw [h1, h1]

/-- One repair run on an all-stable sequence reduces to the trailer
step alone. -/
theorem repair_of_stable (l : List Msg) (agp : Option J)
    (hl : ∀ m ∈ l, stableMsg m) : repairMessages l agp = addTrailer agp l := by
  unfold repairMessages validate_tool_call_correspondence
  simp only []
  rw [filterMap_convert_id l hl,
    removePass_id_of_no_tool _ l fun m hm => stable_not_tool m (hl m hm),
    prunePass_id _ _ l fun m hm => stable_not_truthy m (hl m hm)]

/-- C1 amended: the repairer is idempotent on conversations that carry
no tool-role messages and no `tool_calls` fields.  (In general it is
not idempotent; see the counterexample.) -/
theorem c1_amended_idempotent (msgs : List Msg) (agp : Option J)
    (h : ∀ m ∈ msgs, m.role ≠ some "tool" ∧ m.toolCalls = .absent) :
    repairMessages (repairMessages msgs agp) agp = repairMessages msgs agp := by
  have hstable : ∀ m ∈ repairMessages msgs agp, stableMsg m := by
    intro m hm
    rcases repairMessages_mem msgs agp m hm with h1 | ⟨y, ⟨x, hx, hxy⟩, resp, rm, hprune⟩
    · subst h1
      exact dummyUser_stable
    · have hy := convert_stable x y (h x hx).1 (h x hx).2 hxy
      have hfix : pruneOne resp rm y = y := by
        unfold pruneOne
        rw [if_neg]
        exact fun hc => stable_not_truthy y hy hc.2
      rw [hprune, hfix]
      exact hy
  have hEq : repairMessages msgs agp =
      addTrailer agp
        (prunePass
          (responseIds (validate_tool_call_correspondence
            (msgs.filterMap convert_openai_to_mistral_message)))
          (removePass (emittedIds (validate_tool_call_correspondence
            (msgs.filterMap convert_openai_to_mistral_message)))
            (validate_tool_call_correspondence
              (msgs.filterMap convert_openai_to_mistral_message))).2
          (removePass (emittedIds (validate_tool_call_correspondence
            (msgs.filterMap convert_openai_to_mistral_message)))
            (validate_tool_call_correspondence
              (msgs.filterMap convert_openai_to_mistral_message))).1) := rfl
  rw [repair_of_stable _ _ hstable]
  conv_lhs => rw [hEq]
  rw [addTrailer_idem, ← hEq]

/-- Witness for C1's amended statement: a user/assistant conversation
with no tools; repairing twice equals repairing once. -/
theorem c1_amended_witness :
    (∀ m ∈ [{ role := some "user", content := .str "hi", toolCalls := .absent,
              toolCallId := none, extra := [] },
            c6InMsg], m.role ≠ some "tool" ∧ m.toolCalls = MTC.absent) ∧
    repairMessages
        (repairMessages [{ role := some "user", content := .str "hi",
                           toolCalls := .absent, toolCallId := none, extra := [] },
                         c6InMsg] none) none =
      repairMessages [{ role := some "user", content := .str "hi",
                        toolCalls := .absent, toolCallId := none, extra := [] },
                      c6InMsg] none :=
  ⟨by decide, c1_amended_idempotent _ none (by decide)⟩

/-- C3 fails: in `[assistant(calls a b), tool a, tool b]` only the
originally-last `tool b` is removed, and the adjacency is not
re-validated after removals, so the output ends with `tool a`. -/
theorem c3_counterexample :
    ((repairMessages [asstWithCalls ["a", "b"], toolResp "a", toolResp "b"] none).getLast?).map
      Msg.role = some (some "tool") := by
  decide

/-- No two adjacent tool messages. -/
def toolToolFree (l : List Msg) : Prop :=
  List.Chain' (fun a b => ¬(a.role = some "tool" ∧ b.role = some "tool")) l

/-- No tool message immediately followed by a user message. -/
def toolUserFree (l : List Msg) : Prop :=
  List.Chain' (fun a b => ¬(a.role = some "tool" ∧ b.role = some "user")) l

/-- If the removal pass deletes everything, the input was all tool
messages. -/
theorem rp_nil_all_tool (e : List (Option String)) :
    ∀ l : List Msg, (removePass e l).1 = [] → ∀ x ∈ l, x.role = some "tool" := by
  intro l
  induction l with
  | nil => simp
  | cons m t ih =>
    cases t with
    | nil =>
      intro hnil x hx
      rcases List.mem_singleton.mp hx with rfl
      by_cases hm : x.role = some "tool"
      · exact hm
      · simp [removePass, hm] at hnil
    | cons m2 t2 =>
      intro hnil x hx
      simp only [removePass] at hnil
      split at hnil
      · rename_i hcond
        rcases List.mem_cons.mp hx with rfl | h1
        · exact hcond.1
        · exact ih hnil x h1
      · exact absurd hnil (by simp)

/-- The head of the kept part of a removal pass on `m2 :: t` is `m2`
itself unless `m2` is a (removed) tool message. -/
theorem rp_head (e : List (Option String)) (m2 : Msg) (t : List Msg) (b : Msg)
    (hb : ((removePass e (m2 :: t)).1).head? = some b) :
    b = m2 ∨ m2.role = some "tool" := by
  cases t with
  | nil =>
    by_cases hm : m2.role = some "tool"
    · exact Or.inr hm
    · simp [removePass, hm] at hb
      exact Or.inl hb.symm
  | cons m3 t3 =>
    simp only [removePass] at hb
    split at hb
    · rename_i hcond
      exact Or.inr hcond.1
    · injection hb with h2
      exact Or.inl h2.symm

/-- Under the no-adjacent-tools hypothesis, the kept part of the
removal pass never ends with a tool message. -/
theorem rp_last_not_tool (e : List (Option String)) :
    ∀ l : List Msg, toolToolFree l →
      ∀ m, ((removePass e l).1).getLast? = some m → m.role ≠ some "tool" := by
  intro l
  induction l with
  | nil => simp [removePass]
  | cons m t ih =>
    cases t with
    | nil =>
      intro _ x hx
      by_cases hm : m.role = some "tool"
      · simp [removePass, hm] at hx
      · simp [removePass, hm] at hx
        rw [← hx]
        exact hm
    | cons m2 t2 =>
      intro hchain x hx
      have hpair : ¬(m.role = some "tool" ∧ m2.role = some "tool") :=
        (List.chain'_cons.mp hchain).1
      have htail : toolToolFree (m2 :: t2) := (List.chain'_cons.mp hchain).2
      simp only [removePass] at hx
      split at hx
      · exact ih htail x hx
      · rename_i hcond
        cases hk : (removePass e (m2 :: t2)).1 with
        | nil =>
          rw [hk] at hx
          simp at hx
          rw [← hx]
          intro hm
          have hall := rp_nil_all_tool e (m2 :: t2) hk
          exact hpair ⟨hm, hall m2 (List.mem_cons_self m2 t2)⟩
        | cons a b =>
          rw [hk] at hx
          rw [List.getLast?_cons_cons] at hx
          exact ih htail x (hk ▸ hx)

/-- Under the no-adjacent-tools hypothesis, the kept part of the
removal pass has no tool message immediately followed by a user
message. -/
theorem rp_toolUserFree (e : List (Option String)) :
    ∀ l : List Msg, toolToolFree l → toolUserFree (removePass e l).1 := by
  intro l
  induction l with
  | nil => simp [removePass, toolUserFree]
  | cons m t ih =>
    cases t with
    | nil =>
      intro _
      by_cases hm : m.role = some "tool"
      · simp [removePass, hm, toolUserFree]
      · simp [removePass, hm, toolUserFree]
    | cons m2 t2 =>
      intro hchain
      have hpair : ¬(m.role = some "tool" ∧ m2.role = some "tool") :=
        (List.chain'_cons.mp hchain).1
      have htail := ih (List.chain'_cons.mp hchain).2
      unfold toolUserFree
      simp only [removePass]
      split
      · exact htail
      · rename_i hcond
        refine List.chain'_cons'.mpr ⟨?_, htail⟩
        intro b hb
        by_cases hm : m.role = some "tool"
        · have h2 := not_and.mp hcond hm
          rcases not_or.mp h2 with ⟨_, hm2u⟩
          rcases rp_head e m2 t2 b (by simpa using hb) with rfl | h3
          · exact fun hc => hm2u hc.2
          · exact fun hc => hpair ⟨hm, h3⟩
        · exact fun hc => hm hc.1

/-- Pruning preserves absence of tool-followed-by-user adjacencies. -/
theorem prunePass_toolUserFree (resp rm : List (Option String)) (l : List Msg)
    (h : toolUserFree l) : toolUserFree (prunePass resp rm l) := by
  unfold prunePass toolUserFree
  rw [List.chain'_map]
  refine h.imp ?_
  intro a b hab hc
  rw [pruneOne_role, pruneOne_role] at hc
  exact hab hc

/-- Pruning preserves the role of the last message. -/
theorem prunePass_last_role (resp rm : List (Option String)) (l : List Msg) :
    ((prunePass resp rm l).getLast?).map Msg.role = (l.getLast?).map Msg.role := by
  unfold prunePass
  rw [List.getLast?_map]
  cases l.getLast? with
  | none => rfl
  | some m => simp [pruneOne_role]

/-- C3 amended: the removal pass marks tool messages against their
original positions and never re-validates adjacency, so the invariant
can fail after removals (see the counterexample).  It does hold
whenever the transcoded sequence has no two adjacent tool messages: the
repaired output then never ends with a tool message and never has a
tool message immediately followed by a user message. -/
theorem c3_amended_adjacency (msgs : List Msg) (agp : Option J)
    (h : toolToolFree (validate_tool_call_correspondence
      (msgs.filterMap convert_openai_to_mistral_message))) :
    (∀ m, (repairMessages msgs agp).getLast? = some m → m.role ≠ some "tool") ∧
    toolUserFree (repairMessages msgs agp) := by
  have hEq : repairMessages msgs agp =
      addTrailer agp
        (prunePass
          (responseIds (validate_tool_call_correspondence
            (msgs.filterMap convert_openai_to_mistral_message)))
          (removePass (emittedIds (validate_tool_call_correspondence
            (msgs.filterMap convert_openai_to_mistral_message)))
            (validate_tool_call_correspondence
              (msgs.filterMap convert_openai_to_mistral_message))).2
          (removePass (emittedIds (validate_tool_call_correspondence
            (msgs.filterMap convert_openai_to_mistral_message)))
            (validate_tool_call_correspondence
              (msgs.filterMap convert_openai_to_mistral_message))).1) := rfl
  set conv := validate_tool_call_correspondence
    (msgs.filterMap convert_openai_to_mistral_message) with hconv
  set pruned := prunePass (responseIds conv)
    (removePass (emittedIds conv) conv).2 (removePass (emittedIds conv) conv).1 with hpruned
  have hlast : ∀ m, pruned.getLast? = some m → m.role ≠ some "tool" := by
    intro m hm
    have h2 := prunePass_last_role (responseIds conv)
      (removePass (emittedIds conv) conv).2 (removePass (emittedIds conv) conv).1
    rw [hpruned] at hm
    rw [hm] at h2
    cases hk : ((removePass (emittedIds conv) conv).1).getLast? with
    | none => rw [hk] at h2; exact absurd h2 (by simp)
    | some m0 =>
      rw [hk] at h2
      have h3 : m.role = m0.role := by
        simpa using h2
      rw [h3]
      exact rp_last_not_tool (emittedIds conv) conv h m0 hk
  have htu : toolUserFree pruned :=
    prunePass_toolUserFree _ _ _ (rp_toolUserFree (emittedIds conv) conv h)
  constructor
  · intro m hm
    rw [hEq] at hm
    cases hl : pruned.getLast? with
    | none =>
      have hAT : addTrailer agp pruned = pruned := by
        unfold addTrailer
        rw [hl]
      rw [hAT, hl] at hm
      exact absurd hm (by simp)
    | some m0 =>
      by_cases hcond : m0.role = some "assistant" ∧ pyTruthy (agp.getD (.jb true)) = true
      · have hAT : addTrailer agp pruned = pruned ++ [dummyUser] := by
          unfold addTrailer
          rw [hl]
          exact if_pos hcond
        rw [hAT, List.getLast?_concat] at hm
        injection hm with h2
        rw [← h2]
        simp [dummyUser]
      · have hAT : addTrailer agp pruned = pruned := by
          unfold addTrailer
          rw [hl]
          exact if_neg hcond
        rw [hAT] at hm
        exact hlast m hm
  · rw [hEq]
    cases hl : pruned.getLast? with
    | none =>
      have hAT : addTrailer agp pruned = pruned := by
        unfold addTrailer
        rw [hl]
      rw [hAT]
      exact htu
    | some m0 =>
      by_cases hcond : m0.role = some "assistant" ∧ pyTruthy (agp.getD (.jb true)) = true
      · have hAT : addTrailer agp pruned = pruned ++ [dummyUser] := by
          unfold addTrailer
          rw [hl]
          exact if_pos hcond
        rw [hAT]
        unfold toolUserFree
        rw [List.chain'_append]
        refine ⟨htu, List.chain'_singleton _, ?_⟩
        intro a ha b hb
        rw [hl] at ha
        have h0 := Option.mem_def.mp ha
        injection h0 with haa
        subst haa
        intro hc
        rw [hcond.1] at hc
        exact absurd hc.1 (by simp)
      · have hAT : addTrailer agp pruned = pruned := by
          unfold addTrailer
          rw [hl]
          exact if_neg hcond
        rw [hAT]
        exact htu

/-- Witness for C3's amended statement: a conversation whose transcoded
form has no adjacent tool messages. -/
theorem c3_amended_witness :
    toolToolFree (validate_tool_call_correspondence
      ([asstWithCalls ["a"], toolResp "a", c6InMsg].filterMap
        convert_openai_to_mistral_message)) ∧
    ((∀ m, (repairMessages [asstWithCalls ["a"], toolResp "a", c6InMsg] none).getLast? =
        some m → m.role ≠ some "tool") ∧
     toolUserFree (repairMessages [asstWithCalls ["a"], toolResp "a", c6InMsg] none)) :=
  ⟨by
    unfold toolToolFree
    exact List.chain'_cons.mpr ⟨by decide,
      List.chain'_cons.mpr ⟨by decide, List.chain'_singleton _⟩⟩,
   c3_amended_adjacency [asstWithCalls ["a"], toolResp "a", c6InMsg] none
     (by
       unfold toolToolFree
       exact List.chain'_cons.mpr ⟨by decide,
         List.chain'_cons.mpr ⟨by decide, List.chain'_singleton _⟩⟩)⟩

/-- C4 fails: the message sweep (utils.py:350-356) strips keys from the
pre-conversion message list, but the output carries the transcoded
copies (made at utils.py:248-251, before the sweep), so a
`stream_options` key inside a message survives sanitization even though
it contains "stream" and is not the literal `stream` key. -/
theorem c4_counterexample :
    ((sanitize_request_body
        { messages := [{ role := some "user", content := .str "hi", toolCalls := .absent,
                         toolCallId := none, extra := [("stream_options", .jn 1)] }],
          rest := [] }).messages.map fun m => m.extra.map Prod.fst) =
      [["stream_options"]] ∧
    hasStreamKey "stream_options" = true ∧ pyLower "stream_options" ≠ "stream" :=
  ⟨by decide, by decide, by decide⟩

/-- An object (or any other value) whose top-level keys are all free of
"stream". -/
def objKeysClean : J → Bool
  | .jobj kvs => kvs.all fun kv => !hasStreamKey kv.1
  | _ => true

/-- A `tools`-shaped value whose tool objects have stream-free
`function` objects. -/
def toolsFnClean : J → Bool
  | .jarr ts => ts.all fun t =>
      match t with
      | .jobj kvs => kvs.all fun kv => if kv.1 == "function" then objKeysClean kv.2 else true
      | _ => true
  | _ => true

/-- Cleanliness of one top-level envelope entry after stripping: the
key itself is kept only if not streamy (or exactly `stream` in
lowercase); dict values and dict elements of list values carry no
streamy keys (the literal `stream` included); a `tools` list also has
stream-free `function` objects. -/
def entryClean (kv : String × J) : Bool :=
  (!(hasStreamKey kv.1 && pyLower kv.1 != "stream")) &&
  (match kv.2 with
   | .jobj kvs2 => kvs2.all fun kv2 => !hasStreamKey kv2.1
   | .jarr xs => xs.all objKeysClean
   | _ => true) &&
  (if kv.1 == "tools" then toolsFnClean kv.2 else true)

/-- Removing streamy keys from an object leaves it clean. -/
theorem objKeysClean_stripObjKeys (v : J) : objKeysClean (stripObjKeys v) = true := by
  cases v with
  | jobj kvs =>
    simp only [stripObjKeys, objKeysClean, List.all_eq_true]
    intro kv hkv
    exact (List.mem_filter.mp hkv).2
  | null => rfl
  | jb b => rfl
  | jn n => rfl
  | js s => rfl
  | jarr xs => rfl

/-- A tool declaration stripped by the tool sweep and then the generic
sweep has a stream-free `function` object. -/
theorem toolsFnClean_strip (v : J) :
    toolsFnClean (stripGenericEntry (stripToolsEntry v)) = true := by
  cases v with
  | jarr ts =>
    show (List.map stripObjKeys (List.map stripToolDecl ts)).all _ = true
    rw [List.all_eq_true]
    intro x hx
    rcases List.mem_map.mp hx with ⟨t1, ht1, hxt1⟩
    rcases List.mem_map.mp ht1 with ⟨t, ht, hxt⟩
    subst hxt
    subst hxt1
    cases t with
    | jobj kvs =>
      show (((kvs.filter fun kv => !hasStreamKey kv.1).map fun kv =>
          if kv.1 == "function" then (kv.1, stripObjKeys kv.2) else kv).filter
            fun kv => !hasStreamKey kv.1).all _ = true
      rw [List.all_eq_true]
      intro kv hkv
      have h1 := (List.mem_filter.mp hkv).1
      rcases List.mem_map.mp h1 with ⟨kv0, hkv0, hkvm⟩
      by_cases hfn : kv0.1 == "function"
      · rw [if_pos hfn] at hkvm
        rw [← hkvm]
        rw [if_pos (show (((kv0.1, stripObjKeys kv0.2) : String × J).1 == "function") = true
          from hfn)]
        exact objKeysClean_stripObjKeys _
      · rw [if_neg hfn] at hkvm
        rw [← hkvm]
        rw [if_neg (show ¬ ((kv0 : String × J).1 == "function") = true from hfn)]
    | null => rfl
    | jb b => rfl
    | jn n => rfl
    | js s => rfl
    | jarr xs => rfl
  | jobj kvs => rfl
  | null => rfl
  | jb b => rfl
  | jn n => rfl
  | js s => rfl

/-- The value part of any entry is clean after the generic sweep. -/
theorem valueClean_stripGenericEntry (v : J) :
    (match stripGenericEntry v with
     | .jobj kvs2 => kvs2.all fun kv2 => !hasStreamKey kv2.1
     | .jarr xs => xs.all objKeysClean
     | _ => true) = true := by
  cases v with
  | jobj kvs =>
    simp only [stripGenericEntry, stripObjKeys, List.all_eq_true]
    intro kv hkv
    exact (List.mem_filter.mp hkv).2
  | jarr xs =>
    simp only [stripGenericEntry, List.all_eq_true]
    intro x hx
    rcases List.mem_map.mp hx with ⟨t, ht, hxt⟩
    subst hxt
    exact objKeysClean_stripObjKeys t
  | null => rfl
  | jb b => rfl
  | jn n => rfl
  | js s => rfl

/-- The whole stripping pass leaves every surviving envelope entry
clean. -/
theorem stripRest_clean (rest : List (String × J)) :
    (stripRest rest).all entryClean = true := by
  unfold stripRest
  rw [List.all_eq_true]
  intro kv hkv
  rcases List.mem_map.mp hkv with ⟨kv1, hkv1, hkvg⟩
  rcases List.mem_map.mp hkv1 with ⟨kv0, hkv0, hkvt⟩
  have hkeep : topLevelKeep kv0.1 = true := (List.mem_filter.mp hkv0).2
  by_cases htools : kv0.1 == "tools"
  · rw [if_pos htools] at hkvt
    subst hkvt
    subst hkvg
    unfold entryClean
    simp only [Bool.and_eq_true]
    refine ⟨⟨?_, ?_⟩, ?_⟩
    · simpa [topLevelKeep] using hkeep
    · exact valueClean_stripGenericEntry _
    · rw [if_pos htools]
      exact toolsFnClean_strip _
  · rw [if_neg htools] at hkvt
    subst hkvt
    subst hkvg
    unfold entryClean
    simp only [Bool.and_eq_true]
    refine ⟨⟨?_, ?_⟩, ?_⟩
    · simpa [topLevelKeep] using hkeep
    · exact valueClean_stripGenericEntry _
    · rw [if_neg htools]

/-- C4 amended: when the request does not stream, the sanitizer leaves
no streamy key among the surviving non-message envelope entries: at the
top level every key containing "stream" case-insensitively is removed
unless its lowercase form is exactly "stream" (so any case variant of
`stream` survives, not only the literal key); inside dict values, dict
elements of list values, tool declarations and their `function`
objects, every key containing "stream" is removed — including a key
literally named `stream`.  Keys inside messages are not stripped from
the output at all (see the counterexample). -/
theorem c4_amended_stream_strip (b : ReqBody)
    (h : ¬ pyTruthy ((jGet "stream" b.rest).getD (.jb false)) = true) :
    (sanitize_request_body b).rest.all entryClean = true := by
  unfold sanitize_request_body
  simp only []
  rw [if_neg h]
  exact stripRest_clean _

/-- Witness for C4's amended statement: an envelope with streamy keys
at every level and no `stream` flag. -/
theorem c4_amended_witness :
    (¬ pyTruthy ((jGet "stream"
        ([("stream_options", J.jn 1),
          ("tools", .jarr [.jobj [("stream", .jn 3),
            ("function", .jobj [("stream_opts", .jn 4), ("name", .js "f")])]]),
          ("opts", .jobj [("stream", .jn 6), ("x", .jn 7)])] : List (String × J))).getD
        (.jb false)) = true) ∧
    (sanitize_request_body
      { messages := [],
        rest := [("stream_options", J.jn 1),
          ("tools", .jarr [.jobj [("stream", .jn 3),
            ("function", .jobj [("stream_opts", .jn 4), ("name", .js "f")])]]),
          ("opts", .jobj [("stream", .jn 6), ("x", .jn 7)])] }).rest.all entryClean = true :=
  ⟨by decide,
   c4_amended_stream_strip
     { messages := [],
       rest := [("stream_options", J.jn 1),
         ("tools", .jarr [.jobj [("stream", .jn 3),
           ("function", .jobj [("stream_opts", .jn 4), ("name", .js "f")])]]),
         ("opts", .jobj [("stream", .jn 6), ("x", .jn 7)])] } (by decide)⟩

/-- C9 fails: `adapt` is not total on dict responses — a tool call that
is not itself a dict (here the number 42) makes `tool_call["index"] =
idx` raise a `TypeError` instead of passing the malformed response
through unchanged. -/
theorem c9_counterexample :
    sanitize_response_body (.jobj [("choices", .jarr [.jobj [("message",
      .jobj [("tool_calls", .jarr [.jn 42])])]])]) = .error () := rfl

/-- Whether a value is a JSON object (a Python dict). -/
def isObjJ : J → Bool
  | .jobj _ => true
  | _ => false

/-- Zero-based index assignment over a tool-call list, starting at `i`. -/
def indexToolCallsFrom (i : Nat) : List J → List J
  | [] => []
  | .jobj kvs :: t => .jobj (pySetKey "index" (.jn i) kvs) :: indexToolCallsFrom (i + 1) t
  | x :: t => x :: indexToolCallsFrom (i + 1) t

/-- The pure per-choice transform the adapter implements on well-shaped
choices. -/
def adaptChoice (c : J) : J :=
  match c with
  | .jobj ckvs =>
    match jGet "message" ckvs with
    | some (.jobj mkvs) =>
      match jGet "tool_calls" mkvs with
      | some (.jarr xs) =>
        if xs.isEmpty then c
        else jSetVal c "message"
          (jSetVal (.jobj mkvs) "tool_calls" (.jarr (indexToolCallsFrom 0 xs)))
      | _ => c
    | _ => c
  | c => c

/-- Shape condition under which the adapter cannot raise on a choice:
an object whose `message`, when present, is an object whose
`tool_calls`, when present, is either a list of objects or a non-truthy
value. -/
def choiceOk (c : J) : Bool :=
  match c with
  | .jobj ckvs =>
    match jGet "message" ckvs with
    | none => true
    | some (.jobj mkvs) =>
      match jGet "tool_calls" mkvs with
      | none => true
      | some (.jarr xs) => xs.all isObjJ
      | some v => !pyTruthy v
    | some _ => false
  | _ => false

/-- Key membership agrees with lookup success. -/
theorem jGet_isSome_iff (k : String) (kvs : List (String × J)) :
    (jGet k kvs).isSome = hasKey k kvs := by
  induction kvs with
  | nil => rfl
  | cons kv t ih =>
    cases hkv : (kv.1 == k) with
    | true => simp [jGet, hasKey, List.find?_cons, hkv]
    | false =>
      simp only [jGet, hasKey, List.find?_cons, List.any_cons, hkv] at ih ⊢
      simpa using ih

/-- Lookup after an in-place replacement of the key. -/
theorem jGet_map_set (k : String) (v : J) (kvs : List (String × J))
    (hk : hasKey k kvs = true) :
    jGet k (kvs.map fun kv => if kv.1 == k then (k, v) else kv) = some v := by
  induction kvs with
  | nil => simp [hasKey] at hk
  | cons kv t ih =>
    unfold jGet
    rw [List.map_cons, List.find?_cons]
    rcases Bool.eq_false_or_eq_true (kv.1 == k) with hkv | hkv
    · rw [if_pos hkv]
      rw [show (((k, v) : String × J).1 == k) = true from beq_self_eq_true k]
      rfl
    · rw [if_neg (by simp [hkv]), hkv]
      have hk2 : hasKey k t = true := by
        unfold hasKey at hk
        rw [List.any_cons, hkv, Bool.false_or] at hk
        exact hk
      have ih2 := ih hk2
      unfold jGet at ih2
      exact ih2

/-- Lookup after appending a fresh key. -/
theorem jGet_append_self (k : String) (v : J) (kvs : List (String × J))
    (hk : hasKey k kvs = false) :
    jGet k (kvs ++ [(k, v)]) = some v := by
  induction kvs with
  | nil => simp [jGet, List.find?_cons]
  | cons kv t ih =>
    unfold hasKey at hk
    rw [List.any_cons] at hk
    rcases Bool.or_eq_false_iff.mp hk with ⟨h1, h2⟩
    have ih2 := ih h2
    unfold jGet at ih2 ⊢
    simpa [List.cons_append, List.find?_cons, h1] using ih2

/-- Looking up `index` after the dict assignment yields the new value. -/
theorem jGet_pySetKey_self (k : String) (v : J) (kvs : List (String × J)) :
    jGet k (pySetKey k v kvs) = some v := by
  unfold pySetKey
  by_cases hk : hasKey k kvs = true
  · rw [if_pos hk]
    exact jGet_map_set k v kvs hk
  · rw [if_neg hk]
    exact jGet_append_self k v kvs (by simpa using hk)

/-- On all-object lists the index assignment loop succeeds and computes
`indexToolCallsFrom`. -/
theorem setIndices_ok (xs : List J) (h : xs.all isObjJ = true) :
    ∀ i, setIndices i xs = .ok (indexToolCallsFrom i xs) := by
  induction xs with
  | nil => intro i; rfl
  | cons x t ih =>
    intro i
    rw [List.all_cons, Bool.and_eq_true] at h
    cases x with
    | jobj kvs =>
      simp only [setIndices]
      rw [ih h.2 (i + 1)]
      rfl
    | null => exact absurd h.1 (by simp [isObjJ])
    | jb b => exact absurd h.1 (by simp [isObjJ])
    | jn n => exact absurd h.1 (by simp [isObjJ])
    | js s => exact absurd h.1 (by simp [isObjJ])
    | jarr l => exact absurd h.1 (by simp [isObjJ])

/-- On a well-shaped choice the adapter's per-choice loop succeeds and
computes `adaptChoice`. -/
theorem processChoice_ok (c : J) (hc : choiceOk c = true) :
    processChoice c = .ok (adaptChoice c) := by
  cases c with
  | jobj ckvs =>
    cases hmsg : jGet "message" ckvs with
    | none =>
      have hk : hasKey "message" ckvs = false := by
        rw [← jGet_isSome_iff, hmsg]
        rfl
      simp only [processChoice, pyContains, hk, adaptChoice, hmsg]
    | some m =>
      have hk : hasKey "message" ckvs = true := by
        rw [← jGet_isSome_iff, hmsg]
        rfl
      cases m with
      | jobj mkvs =>
        cases htc : jGet "tool_calls" mkvs with
        | none =>
          have hk2 : hasKey "tool_calls" mkvs = false := by
            rw [← jGet_isSome_iff, htc]
            rfl
          simp only [processChoice, pyContains, pySubscript, hk, hmsg, hk2, adaptChoice, htc]
        | some tv =>
          have hk2 : hasKey "tool_calls" mkvs = true := by
            rw [← jGet_isSome_iff, htc]
            rfl
          cases tv with
          | jarr xs =>
            have hall : xs.all isObjJ = true := by
              simpa only [choiceOk, hmsg, htc] using hc
            cases hxe : xs.isEmpty with
            | true =>
              simp [processChoice, pyContains, pySubscript, hk, hmsg, hk2, htc,
                pyTruthy, hxe, adaptChoice]
            | false =>
              have hsi := setIndices_ok xs hall 0
              simp [processChoice, pyContains, pySubscript, hk, hmsg, hk2, htc,
                pyTruthy, hxe, setIndicesJ, pyIterate, hsi, adaptChoice]
          | null =>
            have hf : pyTruthy J.null = false := rfl
            simp [processChoice, pyContains, pySubscript, hk, hmsg, hk2, htc, hf,
              adaptChoice]
          | jb b =>
            have hf : pyTruthy (J.jb b) = false := by
              have h2 := hc
              simp only [choiceOk, hmsg, htc] at h2
              simpa using h2
            simp [processChoice, pyContains, pySubscript, hk, hmsg, hk2, htc, hf,
              adaptChoice]
          | jn n =>
            have hf : pyTruthy (J.jn n) = false := by
              have h2 := hc
              simp only [choiceOk, hmsg, htc] at h2
              simpa using h2
            simp [processChoice, pyContains, pySubscript, hk, hmsg, hk2, htc, hf,
              adaptChoice]
          | js s =>
            have hf : pyTruthy (J.js s) = false := by
              have h2 := hc
              simp only [choiceOk, hmsg, htc] at h2
              simpa using h2
            simp [processChoice, pyContains, pySubscript, hk, hmsg, hk2, htc, hf,
              adaptChoice]
          | jobj okvs =>
            have hf : pyTruthy (J.jobj okvs) = false := by
              have h2 := hc
              simp only [choiceOk, hmsg, htc] at h2
              simpa using h2
            simp [processChoice, pyContains, pySubscript, hk, hmsg, hk2, htc, hf,
              adaptChoice]
      | null => simp [choiceOk, hmsg] at hc
      | jb b => simp [choiceOk, hmsg] at hc
      | jn n => simp [choiceOk, hmsg] at hc
      | js s => simp [choiceOk, hmsg] at hc
      | jarr l => simp [choiceOk, hmsg] at hc
  | null => simp [choiceOk] at hc
  | jb b => simp [choiceOk] at hc
  | jn n => simp [choiceOk] at hc
  | js s => simp [choiceOk] at hc
  | jarr l => simp [choiceOk] at hc

/-- The choices loop succeeds on all-well-shaped choices. -/
theorem processChoices_ok (cs : List J) (h : ∀ c ∈ cs, choiceOk c = true) :
    processChoices cs = .ok (cs.map adaptChoice) := by
  induction cs with
  | nil => rfl
  | cons c t ih =>
    unfold processChoices
    rw [processChoice_ok c (h c (List.mem_cons_self c t)),
      ih fun x hx => h x (List.mem_cons_of_mem c hx)]
    rfl

/-- C9 amended: the adapter returns non-dict responses unchanged, and
on dict responses whose `choices` is a list of well-shaped choice
objects it succeeds, giving each tool call a zero-based `index` equal
to its position; a dict response with unexpected nested types (e.g. a
non-dict tool call) raises instead of passing through (see the
counterexample). -/
theorem c9_amended_adapter :
    (∀ j : J, isObjJ j = false → sanitize_response_body j = .ok j) ∧
    (∀ kvs choices, jGet "choices" kvs = some (.jarr choices) →
      (∀ c ∈ choices, choiceOk c = true) →
      sanitize_response_body (.jobj kvs) =
        .ok (.jobj (kvs.map fun kv =>
          if kv.1 == "choices" then (kv.1, .jarr (choices.map adaptChoice)) else kv))) ∧
    (∀ xs : List J, xs.all isObjJ = true →
      ∀ i : Nat, ∀ kvs0, xs.get? i = some (.jobj kvs0) →
        (indexToolCallsFrom 0 xs).get? i = some (.jobj (pySetKey "index" (.jn i) kvs0)) ∧
        jGet "index" (pySetKey "index" (.jn i) kvs0) = some (.jn i)) := by
  refine ⟨?_, ?_, ?_⟩
  · intro j hj
    cases j with
    | jobj kvs => simp [isObjJ] at hj
    | null => rfl
    | jb b => rfl
    | jn n => rfl
    | js s => rfl
    | jarr l => rfl
  · intro kvs choices hch hok
    have hk : hasKey "choices" kvs = true := by
      rw [← jGet_isSome_iff, hch]
      rfl
    simp only [sanitize_response_body, hk, hch, if_true]
    rw [processChoices_ok choices hok]
  · have hgen : ∀ (xs : List J), xs.all isObjJ = true →
        ∀ j i kvs0, xs.get? i = some (.jobj kvs0) →
          (indexToolCallsFrom j xs).get? i = some (.jobj (pySetKey "index" (.jn (j + i)) kvs0)) := by
      intro xs
      induction xs with
      | nil => intro _ j i kvs0 h0; simp at h0
      | cons x t ih =>
        intro hall j i kvs0 h0
        rw [List.all_cons, Bool.and_eq_true] at hall
        cases x with
        | jobj kvs1 =>
          cases i with
          | zero =>
            injection h0 with h1
            injection h1 with h2
            subst h2
            rfl
          | succ i2 =>
            show (indexToolCallsFrom (j + 1) t).get? i2 = _
            have h3 := ih hall.2 (j + 1) i2 kvs0 (by simpa using h0)
            have harith : ((j + 1 : Nat) : Int) + (i2 : Int) =
                ((j : Nat) : Int) + ((i2 + 1 : Nat) : Int) := by
              push_cast
              ring
            rw [harith] at h3
            exact h3
        | null => exact absurd hall.1 (by simp [isObjJ])
        | jb b => exact absurd hall.1 (by simp [isObjJ])
        | jn n => exact absurd hall.1 (by simp [isObjJ])
        | js s => exact absurd hall.1 (by simp [isObjJ])
        | jarr l => exact absurd hall.1 (by simp [isObjJ])
    intro xs hall i kvs0 h0
    refine ⟨?_, jGet_pySetKey_self _ _ _⟩
    have := hgen xs hall 0 i kvs0 h0
    simpa using this

/-- Witness for C9's amended statement: a string response passes
through; a two-tool-call response gains `index` values; the indexed
list exposes `index = i` at each position. -/
theorem c9_amended_witness :
    sanitize_response_body (.js "hi") = .ok (.js "hi") ∧
    sanitize_response_body (.jobj [("choices", .jarr [.jobj [("message",
        .jobj [("tool_calls", .jarr [.jobj [("id", .js "a")], .jobj [("id", .js "b")]])])]])]) =
      .ok (.jobj ([("choices", .jarr [.jobj [("message",
        .jobj [("tool_calls", .jarr [.jobj [("id", .js "a")], .jobj [("id", .js "b")]])])]])].map
          fun kv => if kv.1 == "choices" then
            (kv.1, .jarr ([.jobj [("message",
              .jobj [("tool_calls", .jarr [.jobj [("id", .js "a")],
                .jobj [("id", .js "b")]])])]].map adaptChoice)) else kv)) ∧
    ((indexToolCallsFrom 0 [.jobj [("id", .js "a")], .jobj [("id", .js "b")]]).get? 1 =
        some (.jobj (pySetKey "index" (.jn 1) [("id", .js "b")])) ∧
      jGet "index" (pySetKey "index" (.jn 1) [("id", .js "b")]) = some (.jn 1)) :=
  ⟨c9_amended_adapter.1 (.js "hi") rfl,
   c9_amended_adapter.2.1 _ _ rfl (by
     intro c hc
     rcases List.mem_singleton.mp hc with rfl
     rfl),
   c9_amended_adapter.2.2 [.jobj [("id", .js "a")], .jobj [("id", .js "b")]] rfl 1
     [("id", .js "b")] rfl⟩

end DevstralProxy
